import Mathlib

/-!
# Verification of the reliability middleware layer (`src/lib/retry.ts`)

Shallow embedding of the retry executor, circuit breaker, backoff
scheduler, batch processor with semaphore, and promise pool from
`src/lib/retry.ts`, together with proofs and refutations of the
specification's claims about them.

Conventions:
* JS promises resolving with a value or rejecting with an error are
  modelled with `Except E V`.
* An async operation that may be invoked several times is modelled as a
  function from the (1-indexed) invocation number to its outcome.
* Times (`Date.now()`, delays) are `Nat` milliseconds; the numeric
  backoff formula is modelled over `ℚ` (the JS code uses floating point,
  but every claim here is about the algebraic formula, not rounding).
* Observable side effects (invocations, `onRetry` callbacks, sleeps,
  `onProgress` calls) are recorded in explicit event traces.
-/

namespace Retry

/-- Observable events of one `retryWithBackoff` run:
`invoke a` = the wrapped operation is invoked for attempt `a`;
`onRetry a e` = `config.onRetry(a, e)` is called;
`sleep a` = `await sleep(delay)` for the backoff delay of attempt `a`. -/
inductive REvent (E : Type) where
  | invoke (a : Nat)
  | onRetry (a : Nat) (e : E)
  | sleep (a : Nat)
  deriving Repr, DecidableEq

/-- The fields of `RetryOptions` that determine control flow
(`retryWithBackoff`, src/lib/retry.ts lines 3-11; the numeric delay
fields are modelled separately by the backoff scheduler). -/
structure RetryConfig (E : Type) where
  maxAttempts : Nat
  retryCondition : E → Bool

/-- The `for` loop of `retryWithBackoff` (src/lib/retry.ts lines 48-101).
`fuel` counts the loop iterations still allowed by the guard
`attempt <= maxAttempts`: the wrapper `retryWithBackoff` starts the loop
at `attempt = 1` with `fuel = maxAttempts`, and each iteration increments
`attempt` and consumes one unit, so `fuel = maxAttempts + 1 - attempt`
throughout and `fuel = 0` exactly when `attempt > maxAttempts`.
On an error the loop breaks (and the error is re-thrown) when
`attempt == maxAttempts` or the error is not retryable; otherwise it
calls `onRetry(attempt, err)`, sleeps the backoff delay, and loops. -/
def retryLoop (cfg : RetryConfig E) (op : Nat → Except E V) :
    Nat → Nat → E → List (REvent E) × Except E V
  | 0, _, lastErr => ([], .error lastErr)
  | fuel + 1, attempt, _ =>
    match op attempt with
    | .ok v => ([.invoke attempt], .ok v)
    | .error e =>
      if attempt == cfg.maxAttempts || !cfg.retryCondition e then
        ([.invoke attempt], .error e)
      else
        let rest := retryLoop cfg op fuel (attempt + 1) e
        (.invoke attempt :: .onRetry attempt e :: .sleep attempt :: rest.1, rest.2)

/-- The function `retryWithBackoff` (src/lib/retry.ts lines 40-111): runs the loop from
attempt 1; `e0` is the initial `lastError` value
(`new Error('Operation failed without specific error')`). -/
def retryWithBackoff (cfg : RetryConfig E) (op : Nat → Except E V) (e0 : E) :
    List (REvent E) × Except E V :=
  retryLoop cfg op cfg.maxAttempts 1 e0

/-- Number of `invoke` events in a trace: how many times the wrapped
operation was invoked. -/
def invokeCount (tr : List (REvent E)) : Nat :=
  tr.countP fun ev =>
    match ev with
    | .invoke _ => true
    | _ => false

@[simp] theorem invokeCount_nil : invokeCount ([] : List (REvent E)) = 0 := rfl

@[simp] theorem invokeCount_cons_invoke (a : Nat) (tr : List (REvent E)) :
    invokeCount (.invoke a :: tr) = invokeCount tr + 1 := by
  simp [invokeCount, List.countP_cons]

@[simp] theorem invokeCount_cons_onRetry (a : Nat) (e : E) (tr : List (REvent E)) :
    invokeCount (.onRetry a e :: tr) = invokeCount tr := by
  simp [invokeCount, List.countP_cons]

@[simp] theorem invokeCount_cons_sleep (a : Nat) (tr : List (REvent E)) :
    invokeCount (.sleep a :: tr) = invokeCount tr := by
  simp [invokeCount, List.countP_cons]

/-- The ordering the spec asserts between attempts: every
`onRetry(a, e)` event is observed only after the `sleep` for attempt `a`
(i.e. some strictly earlier event in the trace is `sleep a`). -/
def onRetryAfterSleep (tr : List (REvent E)) : Bool :=
  tr.enum.all fun p =>
    match p.2 with
    | .onRetry a _ =>
      (tr.take p.1).any fun ev =>
        match ev with
        | .sleep b => a == b
        | _ => false
    | _ => true

/-- The ordering the code actually has: every `sleep a` is immediately
preceded by `onRetry a _` (and every `onRetry` is immediately followed by
its `sleep`). -/
def onRetryThenSleep : List (REvent E) → Bool
  | [] => true
  | .invoke _ :: tr => onRetryThenSleep tr
  | .onRetry a _ :: .sleep b :: tr => a == b && onRetryThenSleep tr
  | _ => false

/-- Step lemma: a successful attempt returns immediately. -/
theorem retryLoop_ok (cfg : RetryConfig E) (op : Nat → Except E V) (e0 : E)
    (f attempt : Nat) (v : V) (hop : op attempt = .ok v) :
    retryLoop cfg op (f + 1) attempt e0 = ([.invoke attempt], .ok v) := by
  rw [retryLoop, hop]

/-- Step lemma: a failing attempt breaks the loop (re-throwing the error)
when it is the last attempt or the error is not retryable. -/
theorem retryLoop_break (cfg : RetryConfig E) (op : Nat → Except E V) (e0 e : E)
    (f attempt : Nat) (hop : op attempt = .error e)
    (hbrk : (attempt == cfg.maxAttempts || !cfg.retryCondition e) = true) :
    retryLoop cfg op (f + 1) attempt e0 = ([.invoke attempt], .error e) := by
  rw [retryLoop, hop]
  simp only [hbrk, if_true]

/-- Step lemma: a failing attempt that is neither last nor fatal records
`invoke`, `onRetry`, `sleep` and continues with the next attempt. -/
theorem retryLoop_continue (cfg : RetryConfig E) (op : Nat → Except E V) (e0 e : E)
    (f attempt : Nat) (hop : op attempt = .error e)
    (hc : cfg.retryCondition e = true) (hne : attempt ≠ cfg.maxAttempts) :
    retryLoop cfg op (f + 1) attempt e0 =
      (.invoke attempt :: .onRetry attempt e :: .sleep attempt ::
        (retryLoop cfg op f (attempt + 1) e).1,
       (retryLoop cfg op f (attempt + 1) e).2) := by
  rw [retryLoop, hop]
  simp [hc, hne]

/-- Core lemma for C3: if every attempt in `1..maxAttempts` fails with a
retryable error, the loop started at `attempt ≤ maxAttempts` (with
consistent fuel) performs the remaining `maxAttempts + 1 - attempt`
invocations and ends with the last attempt's error. -/
theorem retryLoop_all_fail (cfg : RetryConfig E) (op : Nat → Except E V) (err : Nat → E)
    (hop : ∀ a, 1 ≤ a → a ≤ cfg.maxAttempts → op a = .error (err a))
    (hretry : ∀ a, 1 ≤ a → a ≤ cfg.maxAttempts → cfg.retryCondition (err a) = true) :
    ∀ fuel attempt e0, fuel + attempt = cfg.maxAttempts + 1 → 1 ≤ attempt →
      attempt ≤ cfg.maxAttempts →
      invokeCount (retryLoop cfg op fuel attempt e0).1 = cfg.maxAttempts + 1 - attempt ∧
      (retryLoop cfg op fuel attempt e0).2 = .error (err cfg.maxAttempts) := by
  intro fuel
  induction fuel with
  | zero => intro attempt e0 hfuel _ hle; omega
  | succ f ih =>
    intro attempt e0 hfuel h1 hle
    by_cases hlast : attempt = cfg.maxAttempts
    · rw [retryLoop_break cfg op e0 (err attempt) f attempt (hop attempt h1 hle)
        (by simp [hlast])]
      subst hlast
      simp
    · rw [retryLoop_continue cfg op e0 (err attempt) f attempt (hop attempt h1 hle)
        (hretry attempt h1 hle) hlast]
      have hrec := ih (attempt + 1) (err attempt) (by omega) (by omega) (by omega)
      constructor
      · simp only [invokeCount_cons_invoke, invokeCount_cons_onRetry,
          invokeCount_cons_sleep, hrec.1]
        omega
      · exact hrec.2

/-- C3: if the operation fails on every invocation with an error the
retry predicate accepts, `retryWithBackoff` invokes it exactly
`maxAttempts` times and re-throws the last observed error unchanged
(the very value produced by attempt `maxAttempts`). -/
theorem retry_exhausted (cfg : RetryConfig E) (op : Nat → Except E V) (err : Nat → E)
    (e0 : E) (hmax : 1 ≤ cfg.maxAttempts)
    (hop : ∀ a, 1 ≤ a → a ≤ cfg.maxAttempts → op a = .error (err a))
    (hretry : ∀ a, 1 ≤ a → a ≤ cfg.maxAttempts → cfg.retryCondition (err a) = true) :
    invokeCount (retryWithBackoff cfg op e0).1 = cfg.maxAttempts ∧
    (retryWithBackoff cfg op e0).2 = .error (err cfg.maxAttempts) := by
  have h := retryLoop_all_fail cfg op err hop hretry cfg.maxAttempts 1 e0
    (by omega) le_rfl hmax
  rw [retryWithBackoff]
  exact ⟨by rw [h.1]; omega, h.2⟩

/-- Witness for C3 at a concrete input: `maxAttempts = 3`, every attempt
fails with error `a * 10`, all retryable: 3 invocations, final error 30. -/
theorem retry_exhausted_witness :
    invokeCount (retryWithBackoff (E := Nat) (V := Unit)
        ⟨3, fun _ => true⟩ (fun a => .error (a * 10)) 0).1 = 3 ∧
    (retryWithBackoff (E := Nat) (V := Unit)
        ⟨3, fun _ => true⟩ (fun a => .error (a * 10)) 0).2 = .error 30 :=
  retry_exhausted ⟨3, fun _ => true⟩ (fun a => .error (a * 10)) (fun a => a * 10) 0
    (by decide) (fun _ _ _ => rfl) (fun _ _ _ => rfl)

/-- C4: if the first invocation fails with an error the retry predicate
rejects, `retryWithBackoff` invokes the operation exactly once (whatever
`maxAttempts` is) and propagates that very error value unwrapped. -/
theorem retry_nonretryable_short_circuit (cfg : RetryConfig E) (op : Nat → Except E V)
    (e e0 : E) (hmax : 1 ≤ cfg.maxAttempts)
    (hop : op 1 = .error e) (hfatal : cfg.retryCondition e = false) :
    retryWithBackoff cfg op e0 = ([.invoke 1], .error e) := by
  obtain ⟨m, hm⟩ : ∃ m, cfg.maxAttempts = m + 1 := ⟨cfg.maxAttempts - 1, by omega⟩
  rw [retryWithBackoff, hm,
    retryLoop_break cfg op e0 e m 1 hop (by simp [hfatal])]

/-- Witness for C4: `maxAttempts = 5`, first attempt fails with error 7,
predicate rejects everything: exactly one invocation, error 7 propagated. -/
theorem retry_nonretryable_short_circuit_witness :
    retryWithBackoff (E := Nat) (V := Unit) ⟨5, fun _ => false⟩
        (fun _ => .error 7) 0 = ([.invoke 1], .error 7) :=
  retry_nonretryable_short_circuit ⟨5, fun _ => false⟩ (fun _ => .error 7) 7 0
    (by decide) rfl rfl

/-- C5 counterexample: with `maxAttempts = 2` and an always-failing
retryable operation, the trace is
`[invoke 1, onRetry 1 7, sleep 1, invoke 2]`: the `onRetry` callback for
attempt 1 is observed BEFORE the backoff sleep for attempt 1, so the
claimed ordering (sleep first, then `onRetry`) is false on this run. -/
theorem onRetry_before_sleep_cex :
    (retryWithBackoff (E := Nat) (V := Unit) ⟨2, fun _ => true⟩
        (fun _ => .error 7) 0).1 =
      [.invoke 1, .onRetry 1 7, .sleep 1, .invoke 2] ∧
    onRetryAfterSleep (retryWithBackoff (E := Nat) (V := Unit) ⟨2, fun _ => true⟩
        (fun _ => .error 7) 0).1 = false := by
  constructor <;> rfl

/-- For every fuel/attempt, the loop's trace has each `sleep a`
immediately preceded by `onRetry a _`. -/
theorem onRetryThenSleep_retryLoop (cfg : RetryConfig E) (op : Nat → Except E V) :
    ∀ fuel attempt e0, onRetryThenSleep (retryLoop cfg op fuel attempt e0).1 = true := by
  intro fuel
  induction fuel with
  | zero => intro attempt e0; rfl
  | succ f ih =>
    intro attempt e0
    match hop : op attempt with
    | .ok v => rw [retryLoop_ok cfg op e0 f attempt v hop]; rfl
    | .error e =>
      by_cases hbrk : (attempt == cfg.maxAttempts || !cfg.retryCondition e) = true
      · rw [retryLoop_break cfg op e0 e f attempt hop hbrk]; rfl
      · have hc : cfg.retryCondition e = true := by
          by_contra hcf
          exact hbrk (by simp [Bool.not_eq_true _ ▸ hcf])
        have hne : attempt ≠ cfg.maxAttempts := by
          intro heq
          exact hbrk (by simp [heq])
        rw [retryLoop_continue cfg op e0 e f attempt hop hc hne]
        show onRetryThenSleep (.invoke attempt :: .onRetry attempt e :: .sleep attempt ::
          (retryLoop cfg op f (attempt + 1) e).1) = true
        rw [onRetryThenSleep, onRetryThenSleep]
        simp [ih (attempt + 1) e]

/-- C5 amended: on every run of `retryWithBackoff`, between two attempts
the executor invokes `onRetry(attempt, error)` first and immediately
afterwards sleeps for the backoff delay (the reverse of the spec's
order): every `sleep a` in the trace is immediately preceded by
`onRetry a _`. -/
theorem retry_onRetry_then_sleep (cfg : RetryConfig E) (op : Nat → Except E V) (e0 : E) :
    onRetryThenSleep (retryWithBackoff cfg op e0).1 = true :=
  onRetryThenSleep_retryLoop cfg op cfg.maxAttempts 1 e0

end Retry

namespace Breaker

/-- The three states of `CircuitBreaker` (src/lib/retry.ts line 119);
`opened` renders the source's `'open'` (a Lean keyword). -/
inductive CBMode where
  | closed
  | opened
  | halfOpen
  deriving Repr, DecidableEq

/-- Constructor parameters of `CircuitBreaker` (src/lib/retry.ts lines
121-125). `successThreshold` is accepted by the constructor but never
read anywhere in the class body. -/
structure CBConfig where
  failureThreshold : Nat
  recoveryTimeMs : Nat
  successThreshold : Nat

/-- Mutable fields of a `CircuitBreaker` (src/lib/retry.ts lines 117-119). -/
structure CBState where
  failures : Nat
  lastFailureTime : Nat
  mode : CBMode
  deriving Repr, DecidableEq

/-- Initial field values (`failures = 0`, `lastFailureTime = 0`,
`state = 'closed'`). -/
def initState : CBState := ⟨0, 0, .closed⟩

/-- The method `recordFailure` (src/lib/retry.ts lines 158-171): increments the
failure counter, stamps `lastFailureTime = Date.now()`, and sets the
state to open when the counter has reached `failureThreshold`. -/
def recordFailure (cfg : CBConfig) (s : CBState) (now : Nat) : CBState :=
  { failures := s.failures + 1,
    lastFailureTime := now,
    mode := if cfg.failureThreshold ≤ s.failures + 1 then .opened else s.mode }

/-- The method `reset` (src/lib/retry.ts lines 173-183): zeroes both counters and
closes the circuit. -/
def reset : CBState := ⟨0, 0, .closed⟩

/-- Outcome of one `execute` call: the operation's value, the
operation's error (re-thrown), or the breaker's own fixed
`'Circuit breaker is open'` error. -/
inductive CBOutcome (E V : Type) where
  | ok (v : V)
  | opError (e : E)
  | circuitOpen
  deriving Repr, DecidableEq

/-- Everything observable about one `execute` call: whether the wrapped
operation was invoked, what the caller sees, and the breaker state
afterwards. -/
structure ExecResult (E V : Type) where
  invoked : Bool
  outcome : CBOutcome E V
  state : CBState
  deriving Repr, DecidableEq

/-- The gate at the top of `execute` (src/lib/retry.ts lines 131-142):
when open, either lazily transition to half-open (recovery period
elapsed: `now - lastFailureTime > recoveryTimeMs`) or throw
('circuit open', modelled as `none`). -/
def gate (cfg : CBConfig) (s : CBState) (now : Nat) : Option CBState :=
  if s.mode = .opened then
    if cfg.recoveryTimeMs < now - s.lastFailureTime then
      some { s with mode := .halfOpen }
    else
      none
  else
    some s

/-- The `try`/`catch` body of `execute` (src/lib/retry.ts lines 144-155):
invoke the operation; on success reset if half-open; on failure record
the failure and re-throw. -/
def runOperation (cfg : CBConfig) (s : CBState) (now : Nat) (op : Except E V) :
    ExecResult E V :=
  match op with
  | .ok v => ⟨true, .ok v, if s.mode = .halfOpen then reset else s⟩
  | .error e => ⟨true, .opError e, recordFailure cfg s now⟩

/-- The method `CircuitBreaker.execute` (src/lib/retry.ts lines 127-156). `now` is
the `Date.now()` reading for this call; `op` is the outcome the wrapped
operation would produce if invoked. -/
def execute (cfg : CBConfig) (s : CBState) (now : Nat) (op : Except E V) :
    ExecResult E V :=
  match gate cfg s now with
  | none => ⟨false, .circuitOpen, s⟩
  | some s1 => runOperation cfg s1 now op

/-- Breaker states reachable from a fresh `CircuitBreaker` by any
sequence of `execute` calls (the outcome values carried by the wrapped
operation do not influence the state, so `Except Unit Unit` suffices). -/
inductive Reachable (cfg : CBConfig) : CBState → Prop where
  | init : Reachable cfg initState
  | step (s : CBState) (now : Nat) (op : Except Unit Unit) :
      Reachable cfg s → Reachable cfg (execute cfg s now op).state

/-- Structural invariant of the breaker: in any reachable state, a
non-closed breaker has accumulated at least `failureThreshold` failures,
and a closed breaker strictly fewer (for a positive threshold). -/
theorem reachable_failures_invariant (cfg : CBConfig) (hth : 1 ≤ cfg.failureThreshold) :
    ∀ s, Reachable cfg s →
      (s.mode ≠ .closed → cfg.failureThreshold ≤ s.failures) ∧
      (s.mode = .closed → s.failures < cfg.failureThreshold) := by
  intro s hs
  induction hs with
  | init => exact ⟨fun h => absurd rfl h, fun _ => hth⟩
  | step s now op _ ih =>
    rw [execute]
    match hg : gate cfg s now with
    | none => exact ih
    | some s1 =>
      have hs1 : s1 = s ∨ (s.mode = .opened ∧ s1 = { s with mode := .halfOpen }) := by
        rw [gate] at hg
        by_cases ho : s.mode = .opened
        · rw [if_pos ho] at hg
          by_cases hrec : cfg.recoveryTimeMs < now - s.lastFailureTime
          · rw [if_pos hrec] at hg
            exact Or.inr ⟨ho, (Option.some_inj.mp hg).symm⟩
          · rw [if_neg hrec] at hg; cases hg
        · rw [if_neg ho] at hg
          exact Or.inl (Option.some_inj.mp hg).symm
      have hfail : s1.failures = s.failures := by
        rcases hs1 with h | ⟨_, h⟩ <;> simp [h]
      match op with
      | .ok v =>
        by_cases hh : s1.mode = .halfOpen
        · simp only [runOperation, if_pos hh]
          exact ⟨fun h => absurd rfl h, fun _ => hth⟩
        · simp only [runOperation, if_neg hh]
          rcases hs1 with h | ⟨ho, h⟩
          · exact h ▸ ih
          · exact absurd (by simp [h]) hh
      | .error e =>
        simp only [runOperation, recordFailure]
        by_cases hcross : cfg.failureThreshold ≤ s1.failures + 1
        · simp only [if_pos hcross]
          exact ⟨fun _ => hcross, fun h => by cases h⟩
        · simp only [if_neg hcross]
          constructor
          · intro hne
            have hle : cfg.failureThreshold ≤ s.failures := by
              rcases hs1 with h | ⟨ho, h⟩
              · exact ih.1 (h ▸ hne)
              · exact ih.1 (by simp [ho])
            omega
          · intro _
            omega

/-- C2: while the breaker is open and the recovery period has not yet
elapsed (`now − lastFailureTime ≤ recoveryTimeMs`), `execute` throws the
fixed circuit-open error, does not invoke the operation, and leaves the
state untouched; and concretely, with `failureThreshold = 2`, two
consecutive failing calls open a fresh breaker, after which a third call
within the recovery period is gated for every possible operation. -/
theorem cb_open_gates (cfg : CBConfig) (s : CBState) (now : Nat) (op : Except E V)
    (hopen : s.mode = .opened)
    (hnot : now - s.lastFailureTime ≤ cfg.recoveryTimeMs) :
    execute cfg s now op = ⟨false, .circuitOpen, s⟩ ∧
    ((execute (E := Nat) (V := Nat) ⟨2, 1000, 3⟩
        (execute (E := Nat) (V := Nat) ⟨2, 1000, 3⟩
          (execute (E := Nat) (V := Nat) ⟨2, 1000, 3⟩
            initState 5 (.error 7)).state 6 (.error 8)).state
        500 (.ok 9)) =
      ⟨false, .circuitOpen, ⟨2, 6, .opened⟩⟩) := by
  constructor
  · rw [execute, gate, if_pos hopen, if_neg (by omega)]
  · decide

/-- Witness for C2 at a concrete open state within the recovery period. -/
theorem cb_open_gates_witness :
    (execute ⟨2, 1000, 3⟩ ⟨2, 6, .opened⟩ 500 (.ok (9 : Nat)) : ExecResult Nat Nat) =
      ⟨false, .circuitOpen, ⟨2, 6, .opened⟩⟩ :=
  (cb_open_gates ⟨2, 1000, 3⟩ ⟨2, 6, .opened⟩ 500 (.ok 9) rfl (by decide)).1

/-- C6: for an open breaker, the next `execute` call's gate transitions
it to half-open if and only if `now − lastFailureTime > recoveryTimeMs`
(lazy, on-demand); in half-open, a successful call resets the state to
closed with a zeroed failure counter, and a failing call (for any
breaker that has reached its threshold, which every reachable half-open
breaker has by `reachable_failures_invariant`) returns the state to open
and stamps `lastFailureTime` with the current time. -/
theorem cb_lazy_transitions (E V : Type) (cfg : CBConfig) :
    (∀ s now, s.mode = .opened →
      (gate cfg s now = some { s with mode := .halfOpen } ↔
        cfg.recoveryTimeMs < now - s.lastFailureTime)) ∧
    (∀ s now (v : V), s.mode = .halfOpen →
      (execute (E := E) cfg s now (.ok v)).state = ⟨0, 0, .closed⟩) ∧
    (∀ s now (e : E), s.mode = .halfOpen → cfg.failureThreshold ≤ s.failures →
      (execute (V := V) cfg s now (.error e)).state.mode = .opened ∧
      (execute (V := V) cfg s now (.error e)).state.lastFailureTime = now) := by
  refine ⟨fun s now hopen => ?_, fun s now v hho => ?_, fun s now e hho hth => ?_⟩
  · rw [gate, if_pos hopen]
    by_cases hrec : cfg.recoveryTimeMs < now - s.lastFailureTime
    · simp [hrec]
    · simp [hrec]
  · have hno : s.mode ≠ .opened := by simp [hho]
    rw [execute, gate, if_neg hno]
    simp [runOperation, reset, hho]
  · have hno : s.mode ≠ .opened := by simp [hho]
    rw [execute, gate, if_neg hno]
    simp [runOperation, recordFailure, Nat.le_succ_of_le hth]

/-- Witness for C6 with a concrete breaker: threshold 2, recovery
1000ms, open state stamped at time 5; a call at time 2000 transitions
the gate to half-open; from half-open, success closes and zeroes, while
failure reopens stamping the new time. -/
theorem cb_lazy_transitions_witness :
    gate ⟨2, 1000, 3⟩ ⟨2, 5, .opened⟩ 2000 = some ⟨2, 5, .halfOpen⟩ ∧
    (execute (E := Nat) (V := Nat) ⟨2, 1000, 3⟩ ⟨2, 5, .halfOpen⟩ 2000 (.ok 4)).state =
      ⟨0, 0, .closed⟩ ∧
    (execute (E := Nat) (V := Nat) ⟨2, 1000, 3⟩ ⟨2, 5, .halfOpen⟩ 2000 (.error 4)).state.mode =
      .opened ∧
    (execute (E := Nat) (V := Nat) ⟨2, 1000, 3⟩
        ⟨2, 5, .halfOpen⟩ 2000 (.error 4)).state.lastFailureTime = 2000 :=
  ⟨((cb_lazy_transitions Nat Nat ⟨2, 1000, 3⟩).1 ⟨2, 5, .opened⟩ 2000 rfl).mpr (by decide),
   (cb_lazy_transitions Nat Nat ⟨2, 1000, 3⟩).2.1 ⟨2, 5, .halfOpen⟩ 2000 4 rfl,
   ((cb_lazy_transitions Nat Nat ⟨2, 1000, 3⟩).2.2 ⟨2, 5, .halfOpen⟩ 2000 4 rfl
      (by decide)).1,
   ((cb_lazy_transitions Nat Nat ⟨2, 1000, 3⟩).2.2 ⟨2, 5, .halfOpen⟩ 2000 4 rfl
      (by decide)).2⟩

/-- C7: while closed, each failing `execute` call increments the failure
counter; the resulting state is open exactly when the incremented
counter has reached `failureThreshold`; and a successful call while
closed leaves the whole state — the failure counter included —
unchanged. -/
theorem cb_closed_counting (E V : Type) (cfg : CBConfig) :
    (∀ s now (e : E), s.mode = .closed →
      (execute (V := V) cfg s now (.error e)).state.failures = s.failures + 1) ∧
    (∀ s now (e : E), s.mode = .closed →
      ((execute (V := V) cfg s now (.error e)).state.mode = .opened ↔
        cfg.failureThreshold ≤ s.failures + 1)) ∧
    (∀ s now (v : V), s.mode = .closed →
      (execute (E := E) cfg s now (.ok v)).state = s) := by
  have hgate : ∀ s now, s.mode = .closed → gate cfg s now = some s := by
    intro s now hc
    rw [gate, if_neg (by simp [hc])]
  refine ⟨fun s now e hc => ?_, fun s now e hc => ?_, fun s now v hc => ?_⟩
  · rw [execute, hgate s now hc]
    simp [runOperation, recordFailure]
  · rw [execute, hgate s now hc]
    by_cases hth : cfg.failureThreshold ≤ s.failures + 1
    · simp [runOperation, recordFailure, hth]
    · simp [runOperation, recordFailure, hth, hc]
  · rw [execute, hgate s now hc]
    simp [runOperation, hc]

/-- Witness for C7: a closed breaker with one prior failure under
threshold 2: a failing call at time 9 increments the counter to 2 and
opens; a successful call leaves the state untouched. -/
theorem cb_closed_counting_witness :
    (execute (E := Nat) (V := Nat) ⟨2, 1000, 3⟩ ⟨1, 5, .closed⟩ 9 (.error 4)).state.failures =
      2 ∧
    ((execute (E := Nat) (V := Nat) ⟨2, 1000, 3⟩ ⟨1, 5, .closed⟩ 9 (.error 4)).state.mode =
      .opened ↔ (2 : Nat) ≤ 2) ∧
    (execute (E := Nat) (V := Nat) ⟨2, 1000, 3⟩ ⟨1, 5, .closed⟩ 9 (.ok 4)).state =
      ⟨1, 5, .closed⟩ :=
  ⟨(cb_closed_counting Nat Nat ⟨2, 1000, 3⟩).1 ⟨1, 5, .closed⟩ 9 4 rfl,
   (cb_closed_counting Nat Nat ⟨2, 1000, 3⟩).2.1 ⟨1, 5, .closed⟩ 9 4 rfl,
   (cb_closed_counting Nat Nat ⟨2, 1000, 3⟩).2.2 ⟨1, 5, .closed⟩ 9 4 rfl⟩

end Breaker

namespace Backoff

/-- The exponential component of the backoff delay
(src/lib/retry.ts lines 83-86):
`Math.min(baseDelayMs * backoffMultiplier ** (attempt - 1), maxDelayMs)`,
for the 1-indexed attempt number. Modelled over `ℚ`. -/
def exponentialDelay (baseDelayMs maxDelayMs backoffMultiplier : ℚ) (attempt : Nat) : ℚ :=
  min (baseDelayMs * backoffMultiplier ^ (attempt - 1)) maxDelayMs

/-- The full delay (src/lib/retry.ts lines 88-89):
`exponentialDelay + jitter` where `jitter = Math.random() * jitterMs`
is some `r` with `0 ≤ r < jitterMs`. -/
def delayWithJitter (baseDelayMs maxDelayMs backoffMultiplier : ℚ) (attempt : Nat)
    (r : ℚ) : ℚ :=
  exponentialDelay baseDelayMs maxDelayMs backoffMultiplier attempt + r

/-- C8 counterexample: with baseDelay 1, multiplier 2 (> 1),
maxDelay 1000, jitter 100, both attempts 1 and 2 are below the cap, the
jitter draws 99 and 0 lie in `[0, 100)`, and yet the attempt-2 delay
(2) is strictly smaller than the attempt-1 delay (100): with jitter
included, `delay(a+1) ≥ delay(a)` fails below the cap. -/
theorem backoff_jitter_nonmonotone_cex :
    (1 : ℚ) < 2 ∧
    (0 ≤ (99 : ℚ) ∧ (99 : ℚ) < 100) ∧
    (0 ≤ (0 : ℚ) ∧ (0 : ℚ) < 100) ∧
    exponentialDelay 1 1000 2 1 < 1000 ∧
    exponentialDelay 1 1000 2 2 < 1000 ∧
    delayWithJitter 1 1000 2 2 0 < delayWithJitter 1 1000 2 1 99 := by
  norm_num [exponentialDelay, delayWithJitter]

/-- C8 amended: the delay for attempt `a` is
`min(baseDelay × multiplier^(a−1), maxDelay) + r` with `r ∈ [0, jitter)`
by construction; its deterministic component is non-decreasing in `a`
(for multiplier > 1 and non-negative base), and every jittered delay is
at most `maxDelay + jitter`; the jittered delays themselves need not be
monotone. -/
theorem backoff_monotone_capped (base m maxD j : ℚ) (hbase : 0 ≤ base) (hm : 1 < m) :
    (∀ a : Nat,
      exponentialDelay base maxD m a ≤ exponentialDelay base maxD m (a + 1)) ∧
    (∀ (a : Nat) (r : ℚ), 0 ≤ r → r < j →
      delayWithJitter base maxD m a r ≤ maxD + j) := by
  constructor
  · intro a
    unfold exponentialDelay
    refine min_le_min (mul_le_mul_of_nonneg_left ?_ hbase) le_rfl
    exact pow_le_pow_right₀ (le_of_lt hm) (by omega)
  · intro a r _ hrj
    unfold delayWithJitter exponentialDelay
    exact add_le_add (min_le_right _ _) (le_of_lt hrj)

/-- Witness for C8 amended at base 1, multiplier 2, maxDelay 1000,
jitter 100, attempt 3, jitter draw 50. -/
theorem backoff_monotone_capped_witness :
    (0 : ℚ) ≤ 1 ∧ (1 : ℚ) < 2 ∧
    exponentialDelay 1 1000 2 3 ≤ exponentialDelay 1 1000 2 4 ∧
    delayWithJitter 1 1000 2 3 50 ≤ 1000 + 100 :=
  ⟨by norm_num, by norm_num,
   (backoff_monotone_capped 1 2 1000 100 (by norm_num) (by norm_num)).1 3,
   (backoff_monotone_capped 1 2 1000 100 (by norm_num) (by norm_num)).2 3 50
     (by norm_num) (by norm_num)⟩

end Backoff

namespace Batch

/-- The class `Semaphore` (src/lib/retry.ts lines 251-279): `count` currently
admitted holders, `waiting` the length of the queued-resolver list
`tasks` (each waiter in this development is a distinct batch task, so
the queue's FIFO identity reduces to its length). -/
structure Semaphore where
  max : Nat
  count : Nat
  waiting : Nat
  deriving Repr, DecidableEq

/-- Construction `new Semaphore(max)`: no holders, empty queue. -/
def Semaphore.make (max : Nat) : Semaphore := ⟨max, 0, 0⟩

/-- The method `acquire` (src/lib/retry.ts lines 257-269): if `count < max`,
increment `count` and resolve immediately (`true`); otherwise push the
caller onto the queue (`false` = the caller suspends). -/
def Semaphore.acquire (s : Semaphore) : Semaphore × Bool :=
  if s.count < s.max then ({ s with count := s.count + 1 }, true)
  else ({ s with waiting := s.waiting + 1 }, false)

/-- The method `release` (src/lib/retry.ts lines 271-278): decrement `count`; then
if the queue is non-empty and a slot is free, pop one waiter, which
re-increments `count`. -/
def Semaphore.release (s : Semaphore) : Semaphore :=
  let c := s.count - 1
  if 0 < s.waiting ∧ c < s.max then
    { s with count := c + 1, waiting := s.waiting - 1 }
  else
    { s with count := c }

/-- Lifecycle of one `batch.map` task in `processBatch`
(src/lib/retry.ts lines 227-239). -/
inductive TaskStatus where
  | idle
  | waitingSem
  | running
  | done
  deriving Repr, DecidableEq

/-- Event-loop state while one batch (chunk) of `processBatch` is in
flight. Each task `i` owns `sems[i]`, ITS OWN freshly constructed
`new Semaphore(concurrency)`: in the source the constructor call is
inside the `batch.map` callback (line 228), so it runs once per item,
not once per batch. `completedCount` is the shared `completed` counter,
`progress` the `onProgress(completed, items.length)` calls so far in
call order, and `results[i]` the settled value of `batchPromises[i]`. -/
structure ChunkState (R : Type) where
  status : List TaskStatus
  sems : List Semaphore
  completedCount : Nat
  progress : List (Nat × Nat)
  results : List (Option R)
  deriving Repr, DecidableEq

/-- State at the moment `batch.map` is called: `n` idle tasks, each with
its own fresh `Semaphore(concurrency)`, inheriting the `completed`
counter from earlier batches. -/
def initChunk (R : Type) (n concurrency completed0 : Nat) : ChunkState R :=
  ⟨List.replicate n .idle, List.replicate n (Semaphore.make concurrency),
   completed0, [], List.replicate n none⟩

/-- Scheduler events for a chunk: `start i` = task `i` runs
`await semaphore.acquire()` on its own semaphore and, if admitted
immediately, its `processor(item)` call is now in flight; `finish i` =
task `i`'s `processor` promise settles, after which the continuation
synchronously runs `completed++`, `onProgress?.(completed, total)`,
stores the result, and the `finally` block releases the semaphore. -/
inductive Step where
  | start (i : Nat)
  | finish (i : Nat)
  deriving Repr, DecidableEq

/-- One scheduler event applied to the chunk state; `none` when the
event is not enabled (task not in the required phase). -/
def applyStep (processor : T → R) (chunk : List T) (total : Nat) (s : ChunkState R) :
    Step → Option (ChunkState R)
  | .start i =>
    match s.status[i]? with
    | some .idle =>
      let acq := (s.sems.getD i (Semaphore.make 0)).acquire
      some { s with
        status := s.status.set i (if acq.2 then .running else .waitingSem),
        sems := s.sems.set i acq.1 }
    | _ => none
  | .finish i =>
    match s.status[i]?, chunk[i]? with
    | some .running, some item =>
      some { status := s.status.set i .done,
             sems := s.sems.set i ((s.sems.getD i (Semaphore.make 0)).release),
             completedCount := s.completedCount + 1,
             progress := s.progress ++ [(s.completedCount + 1, total)],
             results := s.results.set i (some (processor item)) }
    | _, _ => none

/-- Run a schedule (list of events) from a chunk state. -/
def runSteps (processor : T → R) (chunk : List T) (total : Nat) :
    List Step → ChunkState R → Option (ChunkState R)
  | [], s => some s
  | ev :: rest, s =>
    match applyStep processor chunk total s ev with
    | none => none
    | some s1 => runSteps processor chunk total rest s1

/-- Number of `processor` invocations currently in flight. -/
def runningCount (s : ChunkState R) : Nat :=
  s.status.countP fun st => decide (st = .running)

/-- Number of tasks whose `processor` call has settled. -/
def doneCount (s : ChunkState R) : Nat :=
  s.status.countP fun st => decide (st = .done)

/-- Largest number of simultaneously in-flight `processor` invocations
over a run (measured after each event). -/
def maxRunning (processor : T → R) (chunk : List T) (total : Nat) :
    List Step → ChunkState R → Option Nat
  | [], s => some (runningCount s)
  | ev :: rest, s =>
    match applyStep processor chunk total s ev with
    | none => none
    | some s1 => (maxRunning processor chunk total rest s1).map (max (runningCount s1))

/-- The `onProgress` calls that a run of the shared counter from
`start` through `start + k` produces: `(start+1, total), …, (start+k, total)`. -/
def progressSeq (start k total : Nat) : List (Nat × Nat) :=
  (List.range k).map fun j => (start + j + 1, total)

/-- The `for (let i = 0; i < items.length; i += batchSize)` slicing of
`processBatch` (src/lib/retry.ts lines 223-224): successive
`items.slice(i, i + batchSize)` chunks. `fuel` (instantiated with
`l.length`, an upper bound on the number of chunks for a positive
`batchSize`) makes the recursion structural. -/
def chunksGo (bs : Nat) : Nat → List T → List (List T)
  | 0, _ => []
  | _, [] => []
  | fuel + 1, l => l.take bs :: chunksGo bs fuel (l.drop bs)

/-- The batches processed by `processBatch(items, …, {batchSize})`. -/
def chunks (bs : Nat) (l : List T) : List (List T) :=
  chunksGo bs l.length l

/-- The whole of `processBatch` (src/lib/retry.ts lines 209-246) under a
scheduler: batches run one after the other (`await Promise.all` between
them), each driven by its own event schedule; results are appended in
input order (`Promise.all` preserves the `batch.map` order), the
`completed` counter and `onProgress` log thread through. `none` when a
schedule is invalid or leaves a task unfinished. -/
def runChunks (processor : T → R) (concurrency total : Nat) :
    List (List T) → List (List Step) → Nat → List R → List (Nat × Nat) →
    Option (List R × List (Nat × Nat) × Nat)
  | [], [], completed, accR, accP => some (accR, accP, completed)
  | c :: cs, sch :: schs, completed, accR, accP =>
    match runSteps processor c total sch (initChunk R c.length concurrency completed) with
    | none => none
    | some s =>
      if s.status.all (fun st => decide (st = .done)) then
        runChunks processor concurrency total cs schs s.completedCount
          (accR ++ s.results.filterMap id) (accP ++ s.progress)
      else none
  | _, _, _, _, _ => none

/-- The call `processBatch(items, processor, options)` in full:
returns the resolved results array and the list of `onProgress` calls. -/
def processBatchRun (processor : T → R) (batchSize concurrency : Nat)
    (items : List T) (scheds : List (List Step)) :
    Option (List R × List (Nat × Nat)) :=
  (runChunks processor concurrency items.length
      (chunks batchSize items) scheds 0 [] []).map fun r => (r.1, r.2.1)

@[simp] theorem progressSeq_zero (start total : Nat) :
    progressSeq start 0 total = [] := rfl

theorem progressSeq_succ (start k total : Nat) :
    progressSeq start (k + 1) total =
      progressSeq start k total ++ [(start + k + 1, total)] := by
  unfold progressSeq
  rw [List.range_succ, List.map_append]
  rfl

theorem progressSeq_append (start k m total : Nat) :
    progressSeq start k total ++ progressSeq (start + k) m total =
      progressSeq start (k + m) total := by
  induction m with
  | zero => simp
  | succ m ih =>
    rw [progressSeq_succ, ← List.append_assoc, ih, ← Nat.add_assoc,
      progressSeq_succ, Nat.add_assoc start k m]

theorem countP_replicate_of_neg {p : α → Bool} {a : α} (h : p a = false) (n : Nat) :
    (List.replicate n a).countP p = 0 := by
  induction n with
  | zero => rfl
  | succ n ih => rw [List.replicate_succ, List.countP_cons, ih, h]; rfl

/-- Invariant tying the chunk machine's state to the source's behavior:
list lengths match the chunk, the shared counter counts settled tasks on
top of `completed0`, the `onProgress` log is the consecutive counter
readings, and slot `i` of `results` is exactly `processor chunk[i]` once
task `i` is done and unset before. -/
def ChunkInv (processor : T → R) (chunk : List T) (total completed0 : Nat)
    (s : ChunkState R) : Prop :=
  s.status.length = chunk.length ∧
  s.results.length = chunk.length ∧
  s.completedCount = completed0 + doneCount s ∧
  s.progress = progressSeq completed0 (doneCount s) total ∧
  ∀ i, (h : i < chunk.length) →
    (s.status[i]? = some .done → s.results[i]? = some (some (processor chunk[i]))) ∧
    (s.status[i]? ≠ some .done → s.results[i]? = some none)

theorem chunkInv_init (processor : T → R) (chunk : List T)
    (total completed0 concurrency : Nat) :
    ChunkInv processor chunk total completed0
      (initChunk R chunk.length concurrency completed0) := by
  refine ⟨by simp [initChunk], by simp [initChunk], ?_, ?_, ?_⟩
  · simp [initChunk, doneCount, countP_replicate_of_neg]
  · simp [initChunk, doneCount, countP_replicate_of_neg]
  · intro i h
    constructor
    · intro hdone
      rw [initChunk] at hdone
      simp only [List.getElem?_replicate, if_pos h] at hdone
      cases hdone
    · intro _
      simp [initChunk, h]

theorem decide_start_ne_done (b : Bool) :
    decide ((if b = true then TaskStatus.running else TaskStatus.waitingSem) =
      TaskStatus.done) = false := by
  cases b <;> rfl

theorem chunkInv_step (processor : T → R) (chunk : List T) (total completed0 : Nat)
    (s s1 : ChunkState R) (ev : Step)
    (hinv : ChunkInv processor chunk total completed0 s)
    (hstep : applyStep processor chunk total s ev = some s1) :
    ChunkInv processor chunk total completed0 s1 := by
  obtain ⟨hlen, hrlen, hcc, hpr, hpt⟩ := hinv
  match ev with
  | .start i =>
    rw [applyStep] at hstep
    match hst : s.status[i]? with
    | some .idle =>
      rw [hst] at hstep
      simp only [Option.some_inj] at hstep
      have hi : i < s.status.length := (List.getElem?_eq_some.mp hst).1
      have hidle : s.status[i] = TaskStatus.idle := (List.getElem?_eq_some.mp hst).2
      obtain ⟨v, hv, hs1⟩ : ∃ v, decide (v = TaskStatus.done) = false ∧
          s1 = { s with
            status := s.status.set i v,
            sems := s.sems.set i ((s.sems.getD i (Semaphore.make 0)).acquire).1 } :=
        ⟨_, decide_start_ne_done _, hstep.symm⟩
      subst hs1
      have hdc : (s.status.set i v).countP (fun st => decide (st = TaskStatus.done)) =
          doneCount s := by
        rw [List.countP_set _ _ _ _ hi, hidle, hv]
        simp [doneCount]
      refine ⟨by simpa using hlen, hrlen, ?_, ?_, ?_⟩
      · show s.completedCount =
          completed0 + (s.status.set i v).countP (fun st => decide (st = TaskStatus.done))
        rw [hdc]
        exact hcc
      · show s.progress = progressSeq completed0
          ((s.status.set i v).countP (fun st => decide (st = TaskStatus.done))) total
        rw [hdc]
        exact hpr
      · intro j hj
        by_cases hji : j = i
        · subst hji
          constructor
          · intro hdone
            rw [show ({ s with
                status := s.status.set j v,
                sems := s.sems.set j ((s.sems.getD j (Semaphore.make 0)).acquire).1 } :
                ChunkState R).status = s.status.set j v from rfl,
              List.getElem?_set_self hi] at hdone
            exact absurd (Option.some_inj.mp hdone) (of_decide_eq_false hv)
          · intro _
            exact (hpt j hj).2 (by rw [hst]; simp)
        · have hget : (s.status.set i v)[j]? = s.status[j]? :=
            List.getElem?_set_ne (fun hcon => hji hcon.symm)
          exact ⟨fun hdone => (hpt j hj).1 (by rw [← hget]; exact hdone),
            fun hnd => (hpt j hj).2 (by rw [← hget]; exact hnd)⟩
    | some .waitingSem => rw [hst] at hstep; cases hstep
    | some .running => rw [hst] at hstep; cases hstep
    | some .done => rw [hst] at hstep; cases hstep
    | none => rw [hst] at hstep; cases hstep
  | .finish i =>
    rw [applyStep] at hstep
    match hst : s.status[i]?, hit : chunk[i]? with
    | some .running, some item =>
      rw [hst, hit] at hstep
      simp only [Option.some_inj] at hstep
      subst hstep
      have hi : i < s.status.length := (List.getElem?_eq_some.mp hst).1
      have hic : i < chunk.length := (List.getElem?_eq_some.mp hit).1
      have hir : i < s.results.length := by omega
      have hdc : (s.status.set i TaskStatus.done).countP
          (fun st => decide (st = .done)) = doneCount s + 1 := by
        rw [List.countP_set _ _ _ _ hi]
        have : s.status[i] = TaskStatus.running := (List.getElem?_eq_some.mp hst).2
        rw [this]
        simp [doneCount]
      refine ⟨by simpa using hlen, by simpa using hrlen, ?_, ?_, ?_⟩
      · show s.completedCount + 1 = completed0 + _
        rw [hcc]
        show completed0 + doneCount s + 1 = completed0 + (s.status.set i .done).countP _
        rw [hdc]
        omega
      · show s.progress ++ [(s.completedCount + 1, total)] =
          progressSeq completed0 ((s.status.set i .done).countP _) total
        rw [hdc, hpr, progressSeq_succ, hcc]
      · intro j hj
        by_cases hji : j = i
        · subst hji
          constructor
          · intro _
            rw [show (⟨_, _, _, _, s.results.set j (some (processor item))⟩ :
              ChunkState R).results = s.results.set j (some (processor item)) from rfl]
            rw [List.getElem?_set_self hir]
            have : chunk[j] = item := (List.getElem?_eq_some.mp hit).2
            rw [this]
          · intro hnd
            exact absurd (by rw [show (⟨s.status.set j .done, _, _, _, _⟩ :
              ChunkState R).status = s.status.set j .done from rfl,
              List.getElem?_set_self hi]) hnd
        · have hgs : (s.status.set i TaskStatus.done)[j]? = s.status[j]? :=
            List.getElem?_set_ne (fun hcon => hji hcon.symm)
          have hgr : (s.results.set i (some (processor item)))[j]? = s.results[j]? :=
            List.getElem?_set_ne (fun hcon => hji hcon.symm)
          exact ⟨fun hdone => by
              rw [show (⟨_, _, _, _, s.results.set i (some (processor item))⟩ :
                ChunkState R).results = s.results.set i (some (processor item)) from rfl,
                hgr]
              exact (hpt j hj).1 (by rw [← hgs]; exact hdone),
            fun hnd => by
              rw [show (⟨_, _, _, _, s.results.set i (some (processor item))⟩ :
                ChunkState R).results = s.results.set i (some (processor item)) from rfl,
                hgr]
              exact (hpt j hj).2 (by rw [← hgs]; exact hnd)⟩
    | some .running, none => rw [hst, hit] at hstep; cases hstep
    | some .idle, _ => rw [hst] at hstep; cases hstep
    | some .waitingSem, _ => rw [hst] at hstep; cases hstep
    | some .done, _ => rw [hst] at hstep; cases hstep
    | none, _ => rw [hst] at hstep; cases hstep

theorem chunkInv_runSteps (processor : T → R) (chunk : List T) (total completed0 : Nat) :
    ∀ (steps : List Step) (s s2 : ChunkState R),
      ChunkInv processor chunk total completed0 s →
      runSteps processor chunk total steps s = some s2 →
      ChunkInv processor chunk total completed0 s2 := by
  intro steps
  induction steps with
  | nil =>
    intro s s2 hinv hrun
    rw [runSteps] at hrun
    cases Option.some_inj.mp hrun
    exact hinv
  | cons ev rest ih =>
    intro s s2 hinv hrun
    rw [runSteps] at hrun
    revert hrun
    match happ : applyStep processor chunk total s ev with
    | none => intro hrun; cases hrun
    | some s1 =>
      intro hrun
      exact ih s1 s2 (chunkInv_step processor chunk total completed0 s s1 ev hinv happ) hrun

theorem chunkInv_complete (processor : T → R) (chunk : List T) (total completed0 : Nat)
    (s : ChunkState R) (hinv : ChunkInv processor chunk total completed0 s)
    (hall : s.status.all (fun st => decide (st = .done)) = true) :
    s.completedCount = completed0 + chunk.length ∧
    s.progress = progressSeq completed0 chunk.length total ∧
    s.results.filterMap id = chunk.map processor := by
  obtain ⟨hlen, hrlen, hcc, hpr, hpt⟩ := hinv
  have hdone : doneCount s = chunk.length := by
    rw [doneCount, List.countP_eq_length.mpr (List.all_eq_true.mp hall), hlen]
  refine ⟨by rw [hcc, hdone], by rw [hpr, hdone], ?_⟩
  have hres : s.results = chunk.map (fun x => some (processor x)) := by
    apply List.ext_getElem?
    intro i
    by_cases hilt : i < chunk.length
    · have hi : i < s.status.length := by omega
      have hstat : s.status[i]? = some TaskStatus.done := by
        rw [List.getElem?_eq_getElem hi]
        exact congrArg some (of_decide_eq_true
          (List.all_eq_true.mp hall (s.status[i]) (List.getElem_mem hi)))
      rw [(hpt i hilt).1 hstat, List.getElem?_map, List.getElem?_eq_getElem hilt]
      rfl
    · rw [List.getElem?_eq_none (by omega),
        List.getElem?_eq_none (by simp; omega)]
  rw [hres, List.filterMap_map]
  exact List.filterMap_eq_map processor ▸ rfl

theorem chunksGo_succ_cons (bs f : Nat) (a : T) (l : List T) :
    chunksGo bs (f + 1) (a :: l) =
      (a :: l).take bs :: chunksGo bs f ((a :: l).drop bs) := rfl

theorem runChunks_nil_nil (processor : T → R) (concurrency total completed : Nat)
    (accR : List R) (accP : List (Nat × Nat)) :
    runChunks processor concurrency total [] [] completed accR accP =
      some (accR, accP, completed) := rfl

theorem runChunks_nil_cons (processor : T → R) (concurrency total completed : Nat)
    (accR : List R) (accP : List (Nat × Nat)) (sch : List Step)
    (schs : List (List Step)) :
    runChunks processor concurrency total [] (sch :: schs) completed accR accP =
      none := rfl

theorem runChunks_cons_nil (processor : T → R) (concurrency total completed : Nat)
    (accR : List R) (accP : List (Nat × Nat)) (c : List T) (cs : List (List T)) :
    runChunks processor concurrency total (c :: cs) [] completed accR accP =
      none := rfl

theorem runChunks_cons_cons (processor : T → R) (concurrency total completed : Nat)
    (accR : List R) (accP : List (Nat × Nat)) (c : List T) (cs : List (List T))
    (sch : List Step) (schs : List (List Step)) :
    runChunks processor concurrency total (c :: cs) (sch :: schs) completed accR accP =
      match runSteps processor c total sch (initChunk R c.length concurrency completed) with
      | none => none
      | some s =>
        if s.status.all (fun st => decide (st = .done)) then
          runChunks processor concurrency total cs schs s.completedCount
            (accR ++ s.results.filterMap id) (accP ++ s.progress)
        else none := rfl

theorem chunksGo_flatten (bs : Nat) (hbs : 1 ≤ bs) :
    ∀ (fuel : Nat) (l : List T), l.length ≤ fuel → (chunksGo bs fuel l).flatten = l := by
  intro fuel
  induction fuel with
  | zero =>
    intro l hl
    have h0 : l = [] := List.eq_nil_of_length_eq_zero (by omega)
    subst h0
    rfl
  | succ f ih =>
    intro l hl
    match l with
    | [] => rfl
    | a :: l2 =>
      have hlen2 : ((a :: l2).drop bs).length ≤ f := by
        rw [List.length_drop]
        simp only [List.length_cons] at hl ⊢
        omega
      rw [chunksGo_succ_cons, List.flatten_cons, ih _ hlen2, List.take_append_drop]

/-- The batches of `processBatch` cover the items exactly, in order. -/
theorem chunks_flatten (bs : Nat) (hbs : 1 ≤ bs) (l : List T) :
    (chunks bs l).flatten = l :=
  chunksGo_flatten bs hbs l.length l le_rfl

theorem runChunks_spec (processor : T → R) (concurrency total : Nat) :
    ∀ (cs : List (List T)) (schs : List (List Step)) (completed : Nat)
      (accR : List R) (accP : List (Nat × Nat)) (out : List R × List (Nat × Nat) × Nat),
      runChunks processor concurrency total cs schs completed accR accP = some out →
      out.1 = accR ++ cs.flatten.map processor ∧
      out.2.1 = accP ++ progressSeq completed cs.flatten.length total ∧
      out.2.2 = completed + cs.flatten.length := by
  intro cs
  induction cs with
  | nil =>
    intro schs completed accR accP out hrun
    match schs with
    | [] =>
      rw [runChunks_nil_nil] at hrun
      cases Option.some_inj.mp hrun
      simp
    | sch :: schs2 => rw [runChunks_nil_cons] at hrun; cases hrun
  | cons c cs ih =>
    intro schs completed accR accP out hrun
    match schs with
    | [] => rw [runChunks_cons_nil] at hrun; cases hrun
    | sch :: schs2 =>
      rw [runChunks_cons_cons] at hrun
      revert hrun
      match hrs : runSteps processor c total sch (initChunk R c.length concurrency completed) with
      | none => intro hrun; cases hrun
      | some s =>
        intro hrun
        have hrun2 : (if (s.status.all fun st => decide (st = TaskStatus.done)) = true then
            runChunks processor concurrency total cs schs2 s.completedCount
              (accR ++ s.results.filterMap id) (accP ++ s.progress)
          else none) = some out := hrun
        by_cases hall : (s.status.all fun st => decide (st = TaskStatus.done)) = true
        · rw [if_pos hall] at hrun2
          have hinv := chunkInv_runSteps processor c total completed sch _ s
            (chunkInv_init processor c total completed concurrency) hrs
          obtain ⟨hccf, hprf, hresf⟩ :=
            chunkInv_complete processor c total completed s hinv hall
          have hrec := ih schs2 s.completedCount (accR ++ s.results.filterMap id)
            (accP ++ s.progress) out hrun2
          refine ⟨?_, ?_, ?_⟩
          · rw [hrec.1, hresf, List.append_assoc, List.flatten_cons, List.map_append]
          · rw [hrec.2.1, hprf, List.append_assoc, hccf, progressSeq_append,
              List.flatten_cons, List.length_append]
          · rw [hrec.2.2, hccf, List.flatten_cons, List.length_append]
            omega
        · rw [if_neg hall] at hrun2
          cases hrun2

/-- C9: on every run of `processBatch` in which every task completes
(each chunk's schedule is valid and finishes all its tasks — in
particular every `processor` call succeeds), the returned sequence
equals `items.map processor`, i.e. `output[i]` is the processor's result
for `items[i]` regardless of completion order; and `onProgress` is
called exactly `items.length` times, always with second argument
`items.length`, with the first arguments being precisely
`1, 2, …, items.length` in order — in particular each value occurs
exactly once. -/
theorem processBatch_order_progress (processor : T → R) (batchSize concurrency : Nat)
    (items : List T) (scheds : List (List Step)) (out : List R × List (Nat × Nat))
    (hbs : 1 ≤ batchSize)
    (hrun : processBatchRun processor batchSize concurrency items scheds = some out) :
    out.1 = items.map processor ∧
    out.2.length = items.length ∧
    (∀ pr ∈ out.2, pr.2 = items.length) ∧
    out.2.map Prod.fst = List.range' 1 items.length := by
  rw [processBatchRun] at hrun
  obtain ⟨r, hr, hout⟩ := Option.map_eq_some'.mp hrun
  have hspec := runChunks_spec processor concurrency items.length
    (chunks batchSize items) scheds 0 [] [] r hr
  rw [chunks_flatten batchSize hbs items] at hspec
  subst hout
  refine ⟨by simpa using hspec.1, ?_, ?_, ?_⟩
  · show r.2.1.length = items.length
    rw [hspec.2.1]
    simp [progressSeq]
  · intro pr hpr
    show pr.2 = items.length
    rw [hspec.2.1] at hpr
    simp only [List.nil_append, progressSeq, List.mem_map, List.mem_range] at hpr
    obtain ⟨j, _, he⟩ := hpr
    rw [← he]
  · show r.2.1.map Prod.fst = List.range' 1 items.length
    rw [hspec.2.1, List.nil_append, progressSeq, List.map_map,
      List.range'_eq_map_range]
    apply List.map_congr_left
    intro j _
    show 0 + j + 1 = 1 + j
    omega

/-- Witness for C9: items `[1,2,3,4,5]`, doubling processor,
`batchSize 2`, `concurrency 2`, with the first chunk completing OUT of
submission order (task 1 before task 0): results still `[2,4,6,8,10]`
in input order and progress `(1,5) … (5,5)`. -/
theorem processBatch_order_progress_witness :
    processBatchRun (fun x : Nat => 2 * x) 2 2 [1, 2, 3, 4, 5]
      [[.start 0, .start 1, .finish 1, .finish 0],
       [.start 0, .finish 0, .start 1, .finish 1],
       [.start 0, .finish 0]] =
      some ([2, 4, 6, 8, 10], [(1, 5), (2, 5), (3, 5), (4, 5), (5, 5)]) ∧
    ([2, 4, 6, 8, 10] : List Nat) = [1, 2, 3, 4, 5].map (fun x => 2 * x) ∧
    [(1, 5), (2, 5), (3, 5), (4, 5), (5, 5)].map Prod.fst = List.range' 1 5 := by
  have h := processBatch_order_progress (fun x : Nat => 2 * x) 2 2 [1, 2, 3, 4, 5]
    [[.start 0, .start 1, .finish 1, .finish 0],
     [.start 0, .finish 0, .start 1, .finish 1],
     [.start 0, .finish 0]]
    ([2, 4, 6, 8, 10], [(1, 5), (2, 5), (3, 5), (4, 5), (5, 5)])
    (by decide) (by decide)
  exact ⟨by decide, h.1, h.2.2.2⟩

/-- Acquiring a freshly constructed semaphore always admits immediately
when its limit is at least 1 — which is why the per-item
`new Semaphore(concurrency)` of `processBatch` never makes any task
wait. -/
theorem acquire_fresh_always_admits (c : Nat) (hc : 1 ≤ c) :
    (Semaphore.make c).acquire = (⟨c, 1, 0⟩, true) := by
  have h0 : 0 < c := hc
  simp [Semaphore.make, Semaphore.acquire, h0]

/-- Witness for the fresh-semaphore lemma at limit 1. -/
theorem acquire_fresh_always_admits_witness :
    (Semaphore.make 1).acquire = (⟨1, 1, 0⟩, true) :=
  acquire_fresh_always_admits 1 (by decide)

/-- C1 refutation: `processBatch` does NOT bound in-flight `processor`
invocations by `concurrency`. Because the source constructs a fresh
`new Semaphore(concurrency)` INSIDE the `batch.map` callback
(src/lib/retry.ts line 228), every task acquires its own semaphore and
is admitted immediately, so all tasks of a chunk can run at once. Here:
4 items in one batch with `concurrency = 1`, under the schedule the JS
event loop actually produces (`batch.map` starts every task before any
completion callback runs), reach 4 simultaneously running `processor`
invocations — exceeding the claimed bound of 1 — and the run still
completes every task. -/
theorem processBatch_concurrency_bound_violated :
    maxRunning (fun x : Nat => 2 * x) [1, 2, 3, 4] 4
      [.start 0, .start 1, .start 2, .start 3, .finish 0, .finish 1, .finish 2, .finish 3]
      (initChunk Nat 4 1 0) = some 4 ∧
    (runSteps (fun x : Nat => 2 * x) [1, 2, 3, 4] 4
      [.start 0, .start 1, .start 2, .start 3, .finish 0, .finish 1, .finish 2, .finish 3]
      (initChunk Nat 4 1 0)).map
        (fun s => s.status.all fun st => decide (st = .done)) = some true ∧
    (1 : Nat) < 4 :=
  ⟨by decide, by decide, by decide⟩

end Batch

namespace Pool

/-- One settlement observed by `await Promise.race(this.running)` inside
`PromisePool.add`'s wait loop (src/lib/retry.ts lines 331-333): either
some running task fulfilled (its `finally` cleanup, registered at
add-time, removes it from `running` before the loop re-checks), or some
running task rejected with an error, in which case the `await` itself
throws that error. -/
inductive RaceEv (E : Type) where
  | fulfilled
  | rejected (e : E)
  deriving Repr, DecidableEq

/-- How a `PromisePool.add(promiseFactory)` call gets past (or fails to
get past) its wait loop: `started` = the loop exited and
`promiseFactory()` is invoked (line 335); `rejectedWith e` = the
`await Promise.race` threw `e`, so `add` rejects with `e` and the
factory is NEVER invoked; `waiting` = the given settlement sequence ran
out with the pool still at its limit. -/
inductive AddOutcome (E : Type) where
  | started
  | rejectedWith (e : E)
  | waiting
  deriving Repr, DecidableEq

/-- The `while (this.running.size >= this.concurrency)` loop of
`PromisePool.add` (src/lib/retry.ts lines 329-344), driven by the
settlement sequence of the already-running tasks; `size` is
`this.running.size`. -/
def addWaitLoop (concurrency : Nat) : Nat → List (RaceEv E) → AddOutcome E
  | size, evs =>
    if size < concurrency then .started
    else
      match evs with
      | [] => .waiting
      | .fulfilled :: rest => addWaitLoop concurrency (size - 1) rest
      | .rejected e :: _ => .rejectedWith e

/-- C10: when `add` is called with the pool already at its concurrency
limit and the next running task to settle rejects with `e`, the `add`
call itself rejects with that unrelated task's error and the submitted
factory is never invoked. -/
theorem pool_add_rejects_with_foreign_error (concurrency size : Nat) (e : E)
    (evs : List (RaceEv E)) (hfull : concurrency ≤ size) :
    addWaitLoop concurrency size (.rejected e :: evs) = .rejectedWith e := by
  rw [addWaitLoop, if_neg (by omega)]

/-- Witness for C10: pool of concurrency 3 with 3 running tasks, the
first of which to settle rejects with error 42. -/
theorem pool_add_rejects_with_foreign_error_witness :
    addWaitLoop (E := Nat) 3 3 (.rejected 42 :: [.fulfilled]) = .rejectedWith 42 :=
  pool_add_rejects_with_foreign_error 3 3 42 [.fulfilled] (by decide)

end Pool
